import Mathlib

/-!
# learn-go: a verification development

Shallow embeddings of five programs of the repository and theorems about them.

* `Iota`        : `code/iota/main.go` and `01-Language-Basics/06_constants/07_iota/main.go`
* `AsciiArray`  : `04-Data-Structures/17_array/02/main.go`
* `TermInput`   : `code/term/input/main.go` and `code/term/hide-cursor/main.go`
* `FanIn`       : `05-Concurrency/02_channels/02_n-to-1/03_semaphore/main.go`
* `Atomicity`   : `05-Concurrency/01_goroutines/08_atomicity/main.go`

Definitions come first, theorems follow.
-/

set_option linter.unnecessarySeqFocus false

/-! ## Definitions -/

namespace Iota

/-- The constant expression `1 << (iota * 10)` shared by the lines of the `const` block.
Go evaluates untyped integer constants exactly, so the value is a natural number. -/
def shiftExpr (iota : Nat) : Nat := 1 <<< (iota * 10)

/-- Line 7 of the const block: `kb = 1 << (iota * 10)` with `iota = 1`
(line 6, `_ = iota`, consumes `iota = 0`). -/
def kb : Nat := shiftExpr 1

/-- Line 8: `mb = 1 << (iota * 10)` with `iota = 2`. -/
def mb : Nat := shiftExpr 2

/-- Line 9: `gb = 1 << (iota * 10)` with `iota = 3`. -/
def gb : Nat := shiftExpr 3

/-- Line 10: `tb = 1 << (iota * 10)` with `iota = 4`. -/
def tb : Nat := shiftExpr 4

end Iota

namespace AsciiArray

/-- Outcome of running a loop with a step budget. -/
inductive Outcome (α : Type) where
  | done (x : α)
  | indexOutOfRange
  | outOfFuel
  deriving DecidableEq, Repr

/-- Go's conversion `string(i)` of an integer: the UTF-8 encoding of the code point `i`,
or of U+FFFD when `i` is not a valid code point. -/
def stringOfInt (i : Int) : String :=
  if 0 ≤ i ∧ (i.toNat < 0xD800 ∨ (0xDFFF < i.toNat ∧ i.toNat < 0x110000)) then
    String.singleton (Char.ofNat i.toNat)
  else
    String.singleton (Char.ofNat 0xFFFD)

/-- The zero value of `var x [58]string`. -/
def zeroArray : List String := List.replicate 58 ""

/-- The assignment `x[idx] = v` with Go's run-time bounds check. -/
def store (x : List String) (idx : Int) (v : String) : Option (List String) :=
  if 0 ≤ idx ∧ idx < (x.length : Int) then some (x.set idx.toNat v) else none

/-- The loop `for i := 65; i <= 122; i++ { x[i-65] = string(i) }`, started at `i`. -/
def loop : Nat → Int → List String → Outcome (List String)
  | 0, _, _ => .outOfFuel
  | fuel + 1, i, x =>
    if i ≤ 122 then
      match store x (i - 65) (stringOfInt i) with
      | some x' => loop fuel (i + 1) x'
      | none => .indexOutOfRange
    else .done x

/-- The array `x` of `main` when the loop has finished. -/
def mainArray (fuel : Nat) : Outcome (List String) := loop fuel 65 zeroArray

/-- The array printed by line 13, as the source's comment lists it. -/
def alphabet : List String :=
  (List.range 58).map (fun j => String.singleton (Char.ofNat (65 + j)))

end AsciiArray

namespace TermInput

/-- Scanning part of `strings.Replace(s, old, new, -1)` for a non-empty `old`:
`skip` counts the elements of a matched occurrence that are still to be dropped. -/
def replaceFrom {α : Type} [DecidableEq α] (old new : List α) : Nat → List α → List α
  | _, [] => []
  | skip + 1, _ :: cs => replaceFrom old new skip cs
  | 0, c :: cs =>
    if old.isPrefixOf (c :: cs) then new ++ replaceFrom old new (old.length - 1) cs
    else c :: replaceFrom old new 0 cs

/-- The library call `strings.Replace(s, old, new, -1)`: every non-overlapping occurrence of
`old` in `s`, from the left, is replaced by `new`; an empty `old` matches before every
element and at the end. -/
def replaceAll {α : Type} [DecidableEq α] (s old new : List α) : List α :=
  if old = new then s
  else if old = [] then new ++ s.flatMap (fun c => c :: new)
  else replaceFrom old new 0 s

/-- The library call `reader.ReadString(delim)` on the remaining standard input: the text up to
and including the first `delim`, or `none` (the error `io.EOF`) when there is none. -/
def readString (delim : Char) : List Char → Option (List Char)
  | [] => none
  | c :: cs => if c = delim then some [c] else (readString delim cs).map (fun l => c :: l)

/-- The clean-up statement `input = strings.Replace(input, "\n", "", -1)`. -/
def cleanUp (input : List Char) : List Char := replaceAll input ['\n'] []

/-- The text `runReadString` prints for the line read; `none` when `ReadString` fails and the
function returns after printing the error. -/
def runReadString (stdin : List Char) : Option (List Char) :=
  match readString '\n' stdin with
  | none => none
  | some input => some (cleanUp input)

/-- The conversion the comment `// convert CRLF to LF` describes: each `"\r\n"` becomes
`"\n"`. -/
def crlfToLf (input : List Char) : List Char := replaceAll input ['\r', '\n'] ['\n']

end TermInput

namespace FanIn

/-- One of the two producer goroutines: `first` is the `go func` of lines 12-17, `second` the
one of lines 19-24. -/
inductive Who where
  | first
  | second
  deriving DecidableEq, Repr

/-- Control point of a producer goroutine
`for i := 0; i < 10; i++ { c <- i }; done <- true`. -/
inductive Producer where
  /-- The `go` statement has not been executed yet. -/
  | notStarted
  /-- About to evaluate the loop condition `i < 10`. -/
  | test (i : Nat)
  /-- Blocked at the send `c <- i`. -/
  | send (i : Nat)
  /-- Blocked at the send `done <- true`. -/
  | signal
  /-- The goroutine has returned. -/
  | finished
  deriving DecidableEq, Repr

/-- Control point of the closer goroutine `<-done; <-done; close(c)` (lines 26-31). -/
inductive Closer where
  | notStarted
  /-- Blocked at the first `<-done`. -/
  | recv1
  /-- Blocked at the second `<-done`. -/
  | recv2
  /-- About to execute `close(c)`. -/
  | close
  | finished
  deriving DecidableEq, Repr

/-- Control point of `main` after the two `make` calls. -/
inductive Main where
  /-- About to execute the `go` statement of line 12. -/
  | go1
  /-- About to execute the `go` statement of line 19. -/
  | go2
  /-- About to execute the `go` statement of line 26. -/
  | go3
  /-- Blocked at the receive of `for n := range c`. -/
  | range
  /-- About to execute `fmt.Println(n)`. -/
  | print (n : Nat)
  /-- The loop has been left and `main` has returned. -/
  | returned
  deriving DecidableEq, Repr

/-- Global state of the program. Both channels are unbuffered, so neither holds values: a
channel operation is a rendezvous of a sender and a receiver. -/
structure State where
  main : Main
  p1 : Producer
  p2 : Producer
  closer : Closer
  /-- Channel `c` has been closed. -/
  closed : Bool
  /-- A run-time panic (send on a closed channel, close of a closed channel) has occurred. -/
  panicked : Bool
  /-- The values received by the `range` loop, oldest first. -/
  received : List Nat
  /-- The values printed by `fmt.Println(n)`, oldest first. -/
  stdout : List Nat
  deriving DecidableEq, Repr

/-- The state when `main` has created `c` and `done`. -/
def init : State :=
  { main := .go1, p1 := .notStarted, p2 := .notStarted, closer := .notStarted,
    closed := false, panicked := false, received := [], stdout := [] }

/-- Control point of the producer `w`. -/
def State.prod (s : State) : Who → Producer
  | .first => s.p1
  | .second => s.p2

/-- Moves the producer `w` to the control point `p`. -/
def State.setProd (s : State) (w : Who) (p : Producer) : State :=
  match w with
  | .first => { s with p1 := p }
  | .second => { s with p2 := p }

/-- The atomic steps the scheduler can choose from. -/
inductive Action where
  /-- The goroutine `main` executes a `go` statement or `fmt.Println(n)`, or its receive
  finds `c` closed and the loop ends. -/
  | main
  /-- Producer `w` evaluates `i < 10`. -/
  | test (w : Who)
  /-- The send `c <- i` of producer `w` meets the receive of `range c`; then `i++`. -/
  | send (w : Who)
  /-- The send `done <- true` of producer `w` meets a `<-done` of the closer. -/
  | done (w : Who)
  /-- The closer executes `close(c)`. -/
  | close
  /-- The pending send `c <- i` of producer `w` finds `c` closed and panics. -/
  | panic (w : Who)
  deriving DecidableEq, Repr

/-- One step of the program: `none` when the action is not enabled. Nothing is enabled after
a panic or after `main` has returned, since either ends the process. -/
def step (a : Action) (s : State) : Option State :=
  if s.panicked = true ∨ s.main = .returned then none
  else
    match a with
    | .main =>
      match s.main with
      | .go1 => some { s with main := .go2, p1 := .test 0 }
      | .go2 => some { s with main := .go3, p2 := .test 0 }
      | .go3 => some { s with main := .range, closer := .recv1 }
      | .range => if s.closed = true then some { s with main := .returned } else none
      | .print n => some { s with main := .range, stdout := s.stdout ++ [n] }
      | .returned => none
    | .test w =>
      match s.prod w with
      | .test i => some (s.setProd w (if i < 10 then .send i else .signal))
      | _ => none
    | .send w =>
      match s.prod w, s.main with
      | .send i, .range =>
        if s.closed = true then none
        else some { s.setProd w (.test (i + 1)) with
                    main := .print i, received := s.received ++ [i] }
      | _, _ => none
    | .done w =>
      match s.prod w, s.closer with
      | .signal, .recv1 => some { s.setProd w .finished with closer := .recv2 }
      | .signal, .recv2 => some { s.setProd w .finished with closer := .close }
      | _, _ => none
    | .close =>
      match s.closer with
      | .close =>
        if s.closed = true then some { s with panicked := true }
        else some { s with closer := .finished, closed := true }
      | _ => none
    | .panic w =>
      match s.prod w with
      | .send _ => if s.closed = true then some { s with panicked := true } else none
      | _ => none

/-- Runs a schedule, a list of actions, from `s`: `none` when some action is not enabled
at its turn. The interleavings of the program are the schedules that run from `init`. -/
def run : List Action → State → Option State
  | [], s => some s
  | a :: as, s =>
    match step a s with
    | some s' => run as s'
    | none => none

/-- No action is enabled: the execution cannot be extended. -/
def Final (s : State) : Prop := ∀ a, step a s = none

/-- The order-preserving merges of two lists: `Merge a b l` when `l` splits into the two
subsequences `a` and `b`. -/
inductive Merge : List Nat → List Nat → List Nat → Prop where
  | nil : Merge [] [] []
  | left (x : Nat) {a b l : List Nat} : Merge a b l → Merge (x :: a) b (x :: l)
  | right (x : Nat) {a b l : List Nat} : Merge a b l → Merge a (x :: b) (x :: l)

/-- Number of values a producer has handed over on `c`. -/
def Producer.sent : Producer → Nat
  | .notStarted => 0
  | .test i => i
  | .send i => i
  | .signal => 10
  | .finished => 10

/-- Bounds on the loop counter of a producer. -/
def Producer.InRange : Producer → Prop
  | .test i => i ≤ 10
  | .send i => i < 10
  | _ => True

/-- What the control point of `main` tells about the goroutines it has started. -/
def StartedOk (s : State) : Prop :=
  match s.main with
  | .go1 => s.p1 = .notStarted ∧ s.p2 = .notStarted ∧ s.closer = .notStarted
  | .go2 => s.p1 ≠ .notStarted ∧ s.p2 = .notStarted ∧ s.closer = .notStarted
  | .go3 => s.p1 ≠ .notStarted ∧ s.p2 ≠ .notStarted ∧ s.closer = .notStarted
  | .range => s.p1 ≠ .notStarted ∧ s.p2 ≠ .notStarted ∧ s.closer ≠ .notStarted
  | .print _ => s.p1 ≠ .notStarted ∧ s.p2 ≠ .notStarted ∧ s.closer ≠ .notStarted
  | .returned => s.closer = .finished

/-- What the control point of the closer tells about the producers and about `c`. -/
def CloserOk (s : State) : Prop :=
  match s.closer with
  | .notStarted => s.closed = false ∧ s.p1 ≠ .finished ∧ s.p2 ≠ .finished
  | .recv1 => s.closed = false ∧ s.p1 ≠ .finished ∧ s.p2 ≠ .finished
  | .recv2 => s.closed = false ∧
      ((s.p1 = .finished ∧ s.p2 ≠ .finished) ∨ (s.p1 ≠ .finished ∧ s.p2 = .finished))
  | .close => s.closed = false ∧ s.p1 = .finished ∧ s.p2 = .finished
  | .finished => s.closed = true ∧ s.p1 = .finished ∧ s.p2 = .finished

/-- The inductive invariant of the program. -/
structure Inv (s : State) : Prop where
  noPanic : s.panicked = false
  range1 : s.p1.InRange
  range2 : s.p2.InRange
  merge : Merge (List.range s.p1.sent) (List.range s.p2.sent) s.received
  started : StartedOk s
  closer : CloserOk s

/-- Number of steps a producer still takes part in; a send counts twice, for the
`fmt.Println` that follows it in `main`. -/
def Producer.rank : Producer → Nat
  | .notStarted => 31
  | .test i => 3 * (10 - i) + 1
  | .send i => 3 * (10 - i)
  | .signal => 0
  | .finished => 0

/-- Number of steps the closer still takes. -/
def Closer.rank : Closer → Nat
  | .notStarted => 3
  | .recv1 => 3
  | .recv2 => 2
  | .close => 1
  | .finished => 0

/-- Number of steps of its own `main` still takes, the loop's prints apart. -/
def Main.rank : Main → Nat
  | .go1 => 4
  | .go2 => 3
  | .go3 => 2
  | .range => 1
  | .print _ => 2
  | .returned => 0

/-- Number of steps left before the program ends. -/
def State.rank (s : State) : Nat := s.main.rank + s.p1.rank + s.p2.rank + s.closer.rank

/-- The state in which `main` has returned after receiving `received`. -/
def finalState (received : List Nat) : State :=
  { main := .returned, p1 := .finished, p2 := .finished, closer := .finished,
    closed := true, panicked := false, received := received, stdout := received }

/-- The state in which `c` has just been closed and `main` is still at its receive. -/
def closedState (received : List Nat) : State :=
  { finalState received with main := .range }

/-- A state in the middle of the alternating schedule: the first producer has handed over
`0..6`, the second `0..5`. -/
def midState : State :=
  { main := .print 6, p1 := .test 7, p2 := .send 6, closer := .recv1,
    closed := false, panicked := false,
    received := [0, 0, 1, 1, 2, 2, 3, 3, 4, 4, 5, 5, 6],
    stdout := [0, 0, 1, 1, 2, 2, 3, 3, 4, 4, 5, 5] }

/-- A schedule in which the first producer runs to its end, then the second. -/
def sequentialSchedule : List Action :=
  [.main, .main, .main] ++
  (List.replicate 10 [Action.test .first, .send .first, .main]).flatten ++
  [.test .first, .done .first] ++
  (List.replicate 10 [Action.test .second, .send .second, .main]).flatten ++
  [.test .second, .done .second, .close, .main]

/-- A schedule in which the two producers alternate. -/
def alternatingSchedule : List Action :=
  [.main, .test .first, .main, .test .second, .main] ++
  (List.replicate 10 [Action.send .first, .test .first, .main,
                      .send .second, .main, .test .second]).flatten ++
  [.done .second, .done .first, .close, .main]

end FanIn

namespace Atomicity

/-- One of the two goroutines running `incrementor`: `foo` is started by line 21, `bar` by
line 22. -/
inductive Who where
  | foo
  | bar
  deriving DecidableEq, Repr

/-- Control point of a goroutine running `incrementor` (lines 27-35). -/
inductive Worker where
  /-- The `go` statement has not been executed yet. -/
  | notStarted
  /-- About to evaluate the loop condition `i < 20`. -/
  | test (i : Nat)
  /-- About to execute `time.Sleep(...)`. -/
  | sleep (i : Nat)
  /-- About to execute `atomic.AddInt64(&counter, 1)`. -/
  | add (i : Nat)
  /-- About to execute `atomic.LoadInt64(&counter)`, the last argument of `fmt.Println`. -/
  | load (i : Nat)
  /-- About to execute `fmt.Println(s, i, green("Counter:"), v)`; then `i++`. -/
  | print (i : Nat) (v : Int)
  /-- About to execute `wg.Done()`. -/
  | done
  /-- The goroutine has returned. -/
  | finished
  deriving DecidableEq, Repr

/-- Control point of `main` (lines 16-25). -/
inductive Main where
  /-- About to execute `wg.Add(2)`. -/
  | add
  /-- About to execute `go incrementor(blue("Foo:"))`. -/
  | goFoo
  /-- About to execute `go incrementor(yellow("Bar:"))`. -/
  | goBar
  /-- Blocked in `wg.Wait()`. -/
  | wait
  /-- About to read `counter`, the argument of the last `fmt.Println`. -/
  | read
  /-- About to execute `fmt.Println("Final Counter:", v)`. -/
  | print (v : Int)
  /-- The function `main` has returned. -/
  | returned
  deriving DecidableEq, Repr

/-- A line written to standard output. -/
inductive Line where
  /-- Line 32: the label of goroutine `w`, the loop index and the loaded counter. -/
  | worker (w : Who) (i : Nat) (v : Int)
  /-- Line 24: `Final Counter:` and the value read. -/
  | final (v : Int)
  deriving DecidableEq, Repr

/-- Global state of the program: the control points, the two package-level variables `wg`
(its counter) and `counter`, and the output. -/
structure State where
  main : Main
  foo : Worker
  bar : Worker
  wg : Int
  counter : Int
  /-- A run-time panic (negative WaitGroup counter) has occurred. -/
  panicked : Bool
  stdout : List Line
  deriving DecidableEq, Repr

/-- The state at the start of `main`: both variables have their zero value. -/
def init : State :=
  { main := .add, foo := .notStarted, bar := .notStarted, wg := 0, counter := 0,
    panicked := false, stdout := [] }

/-- Control point of the goroutine `w`. -/
def State.worker (s : State) : Who → Worker
  | .foo => s.foo
  | .bar => s.bar

/-- Moves the goroutine `w` to the control point `p`. -/
def State.setWorker (s : State) (w : Who) (p : Worker) : State :=
  match w with
  | .foo => { s with foo := p }
  | .bar => { s with bar := p }

/-- Two's-complement wrap-around of an `int64`. -/
def wrapInt64 (x : Int) : Int := (x + 2 ^ 63) % 2 ^ 64 - 2 ^ 63

/-- The library call `wg.Add(delta)`: adds `delta` to the counter and panics when the counter
becomes negative. `wg.Done()` is `wg.Add(-1)`. -/
def wgAdd (delta : Int) (s : State) : State :=
  if s.wg + delta < 0 then { s with panicked := true } else { s with wg := s.wg + delta }

/-- The atomic steps the scheduler can choose from: the next statement of `main` or of the
goroutine `w`. -/
inductive Action where
  | main
  | worker (w : Who)
  deriving DecidableEq, Repr

/-- One step of the program: `none` when the action is not enabled. `wg.Wait()` is enabled
only when the WaitGroup counter is zero. Nothing is enabled after a panic or after `main` has
returned, since either ends the process. -/
def step (a : Action) (s : State) : Option State :=
  if s.panicked = true ∨ s.main = .returned then none
  else
    match a with
    | .main =>
      match s.main with
      | .add => some (wgAdd 2 { s with main := .goFoo })
      | .goFoo => some { s with main := .goBar, foo := .test 0 }
      | .goBar => some { s with main := .wait, bar := .test 0 }
      | .wait => if s.wg = 0 then some { s with main := .read } else none
      | .read => some { s with main := .print s.counter }
      | .print v => some { s with main := .returned, stdout := s.stdout ++ [.final v] }
      | .returned => none
    | .worker w =>
      match s.worker w with
      | .notStarted => none
      | .test i => some (s.setWorker w (if i < 20 then .sleep i else .done))
      | .sleep i => some (s.setWorker w (.add i))
      | .add i => some { s.setWorker w (.load i) with counter := wrapInt64 (s.counter + 1) }
      | .load i => some (s.setWorker w (.print i s.counter))
      | .print i v =>
        some { s.setWorker w (.test (i + 1)) with stdout := s.stdout ++ [.worker w i v] }
      | .done => some (wgAdd (-1) (s.setWorker w .finished))
      | .finished => none

/-- Runs a schedule, a list of actions, from `s`: `none` when some action is not enabled
at its turn. The interleavings of the program are the schedules that run from `init`. -/
def run : List Action → State → Option State
  | [], s => some s
  | a :: as, s =>
    match step a s with
    | some s' => run as s'
    | none => none

/-- No action is enabled: the execution cannot be extended. -/
def Final (s : State) : Prop := ∀ a, step a s = none

/-- Number of increments of `counter` a goroutine has performed. -/
def Worker.incs : Worker → Int
  | .notStarted => 0
  | .test i => i
  | .sleep i => i
  | .add i => i
  | .load i => i + 1
  | .print i _ => i + 1
  | .done => 20
  | .finished => 20

/-- Number of calls of `wg.Done()` a goroutine has performed. -/
def Worker.dones : Worker → Int
  | .finished => 1
  | _ => 0

/-- Bounds on the loop index of a goroutine. -/
def Worker.InRange : Worker → Prop
  | .test i => i ≤ 20
  | .sleep i => i < 20
  | .add i => i < 20
  | .load i => i < 20
  | .print i _ => i < 20
  | _ => True

/-- What the control point of `main` tells about the goroutines, the WaitGroup and the
output. -/
def MainOk (s : State) : Prop :=
  match s.main with
  | .add => s.foo = .notStarted ∧ s.bar = .notStarted ∧ s.wg = 0
  | .goFoo => s.foo = .notStarted ∧ s.bar = .notStarted ∧ s.wg = 2
  | .goBar => s.foo ≠ .notStarted ∧ s.bar = .notStarted ∧ s.wg = 2 - s.foo.dones
  | .wait => s.foo ≠ .notStarted ∧ s.bar ≠ .notStarted ∧ s.wg = 2 - s.foo.dones - s.bar.dones
  | .read => s.foo = .finished ∧ s.bar = .finished
  | .print v => s.foo = .finished ∧ s.bar = .finished ∧ v = 40
  | .returned => s.foo = .finished ∧ s.bar = .finished ∧ s.stdout.getLast? = some (.final 40)

/-- The inductive invariant of the program. -/
structure Inv (s : State) : Prop where
  noPanic : s.panicked = false
  rangeFoo : s.foo.InRange
  rangeBar : s.bar.InRange
  count : s.counter = s.foo.incs + s.bar.incs
  mainOk : MainOk s
  finalLine : ∀ v, Line.final v ∈ s.stdout → v = 40

/-- Number of steps a goroutine still takes. -/
def Worker.rank : Worker → Nat
  | .notStarted => 102
  | .test i => 5 * (20 - i) + 2
  | .sleep i => 5 * (20 - i) + 1
  | .add i => 5 * (20 - i)
  | .load i => 5 * (20 - i) - 1
  | .print i _ => 5 * (20 - i) - 2
  | .done => 1
  | .finished => 0

/-- Number of steps `main` still takes. -/
def Main.rank : Main → Nat
  | .add => 6
  | .goFoo => 5
  | .goBar => 4
  | .wait => 3
  | .read => 2
  | .print _ => 1
  | .returned => 0

/-- Number of steps left before the program ends. -/
def State.rank (s : State) : Nat := s.main.rank + s.foo.rank + s.bar.rank

/-- A schedule in which `foo` runs to its end before `bar` starts. -/
def fooFirstSchedule : List Action :=
  [.main, .main] ++ List.replicate 102 (.worker .foo) ++ [.main] ++
  List.replicate 102 (.worker .bar) ++ [.main, .main, .main]

/-- The state in which `main` has returned after the schedule `fooFirstSchedule`. -/
def fooFirstFinal : State :=
  { main := .returned, foo := .finished, bar := .finished, wg := 0, counter := 40,
    panicked := false,
    stdout := (List.range 20).map (fun i => Line.worker .foo i (i + 1)) ++
      (List.range 20).map (fun i => Line.worker .bar i (i + 21)) ++ [.final 40] }

end Atomicity

/-! ## Theorems -/

namespace Iota

/-- C7: the constants `kb`, `mb`, `gb`, `tb` are `1 << 10`, `1 << 20`, `1 << 30`, `1 << 40`,
that is 1024, 1048576, 1073741824 and 1099511627776, and each is 1024 times the one before.
Both copies of the program have the same `const` block. -/
theorem iota_constants :
    kb = 1 <<< (1 * 10) ∧ mb = 1 <<< (2 * 10) ∧ gb = 1 <<< (3 * 10) ∧ tb = 1 <<< (4 * 10) ∧
    kb = 1024 ∧ mb = 1048576 ∧ gb = 1073741824 ∧ tb = 1099511627776 ∧
    mb = 1024 * kb ∧ gb = 1024 * mb ∧ tb = 1024 * gb := by
  simp only [kb, mb, gb, tb, shiftExpr]
  decide

end Iota

namespace AsciiArray

theorem loop_fuel_mono (fuel : Nat) : ∀ (i : Int) (x r : List String),
    loop fuel i x = .done r → ∀ k, loop (fuel + k) i x = .done r := by
  induction fuel with
  | zero => intro i x r h; simp [loop] at h
  | succ n ih =>
    intro i x r h k
    have e : n + 1 + k = (n + k) + 1 := by omega
    rw [e]
    unfold loop at h ⊢
    by_cases hi : i ≤ 122
    · simp only [hi, if_true] at h ⊢
      cases hs : store x (i - 65) (stringOfInt i) with
      | none => simp [hs] at h
      | some x' =>
        simp only [hs] at h ⊢
        exact ih _ _ _ h k
    · simp only [hi, if_false] at h ⊢
      exact h

theorem mainArray_59 : mainArray 59 = .done alphabet := by
  decide

/-- C9: with enough steps the loop finishes without an index-out-of-range panic, every index
`i - 65` for `i` in `65..122` lies in `0..57`, and afterwards `x[j]` is the one-character string
of code point `65 + j` for `j` in `0..57`; `x[0] = "A"`, `x[57] = "z"`, `x[42] = "k"`. -/
theorem ascii_array_filled (fuel : Nat) (hfuel : 59 ≤ fuel) :
    mainArray fuel = .done alphabet ∧
    alphabet.length = 58 ∧
    (∀ i : Int, 65 ≤ i → i ≤ 122 → 0 ≤ i - 65 ∧ i - 65 ≤ 57 ∧
        store zeroArray (i - 65) (stringOfInt i) ≠ none) ∧
    (∀ j : Nat, j ≤ 57 → alphabet[j]? = some (String.singleton (Char.ofNat (65 + j)))) ∧
    alphabet[0]? = some "A" ∧ alphabet[57]? = some "z" ∧ alphabet[42]? = some "k" := by
  refine ⟨?_, by decide, ?_, ?_, by decide, by decide, by decide⟩
  · obtain ⟨k, rfl⟩ := Nat.exists_eq_add_of_le hfuel
    exact loop_fuel_mono 59 65 zeroArray alphabet mainArray_59 k
  · intro i h1 h2
    refine ⟨by omega, by omega, ?_⟩
    have : 0 ≤ i - 65 ∧ i - 65 < ((zeroArray.length : Nat) : Int) := by
      simp [zeroArray]; omega
    simp [store, this]
  · intro j hj
    simp [alphabet, List.getElem?_map, List.getElem?_range (show j < 58 by omega)]

theorem ascii_array_filled_witness :
    59 ≤ 64 ∧ mainArray 64 = .done alphabet :=
  ⟨by decide, (ascii_array_filled 64 (by decide)).1⟩

end AsciiArray

namespace TermInput

/-- C8: on the line `"John\r\n"` the clean-up of `runReadString` yields `"John\r"`: the line
feed is removed and the carriage return is kept, whereas converting CRLF to LF yields
`"John\n"`. -/
theorem cleanUp_drops_line_feed :
    runReadString "John\r\n".toList = some "John\r".toList ∧
    crlfToLf "John\r\n".toList = "John\n".toList ∧
    runReadString "John\r\n".toList ≠ some (crlfToLf "John\r\n".toList) := by
  decide

end TermInput

namespace FanIn

theorem Merge.snoc_left {a b l : List Nat} (h : Merge a b l) (x : Nat) :
    Merge (a ++ [x]) b (l ++ [x]) := by
  induction h with
  | nil => exact Merge.left x Merge.nil
  | left y _ ih => exact Merge.left y ih
  | right y _ ih => exact Merge.right y ih

theorem Merge.snoc_right {a b l : List Nat} (h : Merge a b l) (x : Nat) :
    Merge a (b ++ [x]) (l ++ [x]) := by
  induction h with
  | nil => exact Merge.right x Merge.nil
  | left y _ ih => exact Merge.left y ih
  | right y _ ih => exact Merge.right y ih

theorem Merge.perm {a b l : List Nat} (h : Merge a b l) : l.Perm (a ++ b) := by
  induction h with
  | nil => exact List.Perm.refl _
  | left y _ ih => exact List.Perm.cons y ih
  | right y _ ih =>
    exact (List.Perm.cons y ih).trans List.perm_middle.symm

theorem fanIn_inv_init : Inv init := by
  refine ⟨rfl, trivial, trivial, Merge.nil, ?_, ?_⟩ <;> simp [StartedOk, CloserOk, init]

theorem fanIn_inv_step {a : Action} {s s' : State} (h : Inv s) (hs : step a s = some s') :
    Inv s' := by
  obtain ⟨m, p1, p2, cl, closed, pan, rcv, out⟩ := s
  obtain ⟨hpan, hr1, hr2, hmerge, hst, hcl⟩ := h
  simp only at hpan hr1 hr2 hmerge
  subst hpan
  cases a with
  | main =>
    cases m <;> cases cl <;> simp [step] at hs <;>
      simp [StartedOk, CloserOk] at hst hcl
    all_goals obtain ⟨hc, rfl⟩ := hs
    all_goals
      refine ⟨rfl, ?_, ?_, ?_, ?_, ?_⟩ <;>
        simp_all [StartedOk, CloserOk, Producer.InRange, Producer.sent]
  | test w =>
    cases w
    · cases p1 <;> simp [step, State.prod, State.setProd] at hs
      rename_i i
      obtain ⟨_, rfl⟩ := hs
      simp only [Producer.InRange] at hr1
      by_cases hi : i < 10
      · cases m <;> cases cl <;> simp [StartedOk, CloserOk] at hst hcl <;>
          refine ⟨rfl, ?_, ?_, ?_, ?_, ?_⟩ <;>
          simp_all [StartedOk, CloserOk, Producer.InRange, Producer.sent]
      · have h10 : i = 10 := by omega
        subst h10
        cases m <;> cases cl <;> simp [StartedOk, CloserOk] at hst hcl <;>
          refine ⟨rfl, ?_, ?_, ?_, ?_, ?_⟩ <;>
          simp_all [StartedOk, CloserOk, Producer.InRange, Producer.sent]
    · cases p2 <;> simp [step, State.prod, State.setProd] at hs
      rename_i i
      obtain ⟨_, rfl⟩ := hs
      simp only [Producer.InRange] at hr2
      by_cases hi : i < 10
      · cases m <;> cases cl <;> simp [StartedOk, CloserOk] at hst hcl <;>
          refine ⟨rfl, ?_, ?_, ?_, ?_, ?_⟩ <;>
          simp_all [StartedOk, CloserOk, Producer.InRange, Producer.sent]
      · have h10 : i = 10 := by omega
        subst h10
        cases m <;> cases cl <;> simp [StartedOk, CloserOk] at hst hcl <;>
          refine ⟨rfl, ?_, ?_, ?_, ?_, ?_⟩ <;>
          simp_all [StartedOk, CloserOk, Producer.InRange, Producer.sent]
  | send w =>
    cases w
    · cases p1 <;> cases m <;> simp [step, State.prod, State.setProd] at hs
      rename_i i
      obtain ⟨hc, rfl⟩ := hs
      simp only [Producer.InRange, Producer.sent] at hr1 hmerge
      have hm : Merge (List.range (i + 1)) (List.range p2.sent) (rcv ++ [i]) := by
        rw [List.range_succ]; exact hmerge.snoc_left i
      cases cl <;> simp [StartedOk, CloserOk] at hst hcl <;>
        refine ⟨rfl, ?_, ?_, ?_, ?_, ?_⟩ <;>
        simp_all [StartedOk, CloserOk, Producer.InRange, Producer.sent] <;> omega
    · cases p2 <;> cases m <;> simp [step, State.prod, State.setProd] at hs
      rename_i i
      obtain ⟨hc, rfl⟩ := hs
      simp only [Producer.InRange, Producer.sent] at hr2 hmerge
      have hm : Merge (List.range p1.sent) (List.range (i + 1)) (rcv ++ [i]) := by
        rw [List.range_succ]; exact hmerge.snoc_right i
      cases cl <;> simp [StartedOk, CloserOk] at hst hcl <;>
        refine ⟨rfl, ?_, ?_, ?_, ?_, ?_⟩ <;>
        simp_all [StartedOk, CloserOk, Producer.InRange, Producer.sent] <;> omega
  | done w =>
    cases w
    · cases p1 <;> cases cl <;> simp [step, State.prod, State.setProd] at hs <;>
        obtain ⟨_, rfl⟩ := hs <;> cases m <;> simp [StartedOk, CloserOk] at hst hcl <;>
        refine ⟨rfl, ?_, ?_, ?_, ?_, ?_⟩ <;>
        simp_all [StartedOk, CloserOk, Producer.InRange, Producer.sent]
    · cases p2 <;> cases cl <;> simp [step, State.prod, State.setProd] at hs <;>
        obtain ⟨_, rfl⟩ := hs <;> cases m <;> simp [StartedOk, CloserOk] at hst hcl <;>
        refine ⟨rfl, ?_, ?_, ?_, ?_, ?_⟩ <;>
        simp_all [StartedOk, CloserOk, Producer.InRange, Producer.sent]
  | close =>
    cases cl <;> simp [step] at hs
    simp [CloserOk] at hcl
    obtain ⟨hc, h1, h2⟩ := hcl
    subst hc h1 h2
    simp at hs
    obtain ⟨_, rfl⟩ := hs
    cases m <;> simp [StartedOk] at hst <;>
      refine ⟨rfl, ?_, ?_, ?_, ?_, ?_⟩ <;>
      simp_all [StartedOk, CloserOk, Producer.InRange, Producer.sent]
  | panic w =>
    exfalso
    cases w
    · cases p1 <;> simp [step, State.prod] at hs
      obtain ⟨_, hc, _⟩ := hs
      subst hc
      cases cl <;> simp [CloserOk] at hcl
    · cases p2 <;> simp [step, State.prod] at hs
      obtain ⟨_, hc, _⟩ := hs
      subst hc
      cases cl <;> simp [CloserOk] at hcl

theorem fanIn_inv_run : ∀ (sched : List Action) (s s' : State),
    Inv s → run sched s = some s' → Inv s' := by
  intro sched
  induction sched with
  | nil => intro s s' h hr; simp [run] at hr; exact hr ▸ h
  | cons a as ih =>
    intro s s' h hr
    simp only [run] at hr
    cases hstep : step a s with
    | none => simp [hstep] at hr
    | some t =>
      simp only [hstep] at hr
      exact ih t s' (fanIn_inv_step h hstep) hr

theorem fanIn_rank_step {a : Action} {s s' : State} (h : Inv s) (hs : step a s = some s') :
    s'.rank + 1 = s.rank := by
  have h' := (fanIn_inv_step h hs).noPanic
  obtain ⟨m, p1, p2, cl, closed, pan, rcv, out⟩ := s
  obtain ⟨hpan, hr1, hr2, hmerge, hst, hcl⟩ := h
  simp only at hpan hr1 hr2
  subst hpan
  cases a with
  | main =>
    cases m <;> simp [step] at hs <;> simp [StartedOk] at hst
    all_goals obtain ⟨hc, rfl⟩ := hs
    all_goals (simp_all [State.rank, Main.rank, Producer.rank, Closer.rank] <;> omega)
  | test w =>
    cases w
    · cases p1 <;> simp [step, State.prod, State.setProd] at hs
      rename_i i
      obtain ⟨_, rfl⟩ := hs
      simp only [Producer.InRange] at hr1
      by_cases hi : i < 10
      · simp [State.rank, Producer.rank, hi]; omega
      · have h10 : i = 10 := by omega
        subst h10
        simp [State.rank, Producer.rank]; omega
    · cases p2 <;> simp [step, State.prod, State.setProd] at hs
      rename_i i
      obtain ⟨_, rfl⟩ := hs
      simp only [Producer.InRange] at hr2
      by_cases hi : i < 10
      · simp [State.rank, Producer.rank, hi]; omega
      · have h10 : i = 10 := by omega
        subst h10
        simp [State.rank, Producer.rank]; omega
  | send w =>
    cases w
    · cases p1 <;> cases m <;> simp [step, State.prod, State.setProd] at hs
      obtain ⟨hc, rfl⟩ := hs
      simp only [Producer.InRange] at hr1
      simp [State.rank, Producer.rank, Main.rank]; omega
    · cases p2 <;> cases m <;> simp [step, State.prod, State.setProd] at hs
      obtain ⟨hc, rfl⟩ := hs
      simp only [Producer.InRange] at hr2
      simp [State.rank, Producer.rank, Main.rank]; omega
  | done w =>
    cases w
    · cases p1 <;> cases cl <;> simp [step, State.prod, State.setProd] at hs <;>
        obtain ⟨_, rfl⟩ := hs <;> simp [State.rank, Producer.rank, Closer.rank]
    · cases p2 <;> cases cl <;> simp [step, State.prod, State.setProd] at hs <;>
        obtain ⟨_, rfl⟩ := hs <;> simp [State.rank, Producer.rank, Closer.rank]
  | close =>
    cases cl <;> simp [step] at hs
    simp [CloserOk] at hcl
    obtain ⟨hc, h1, h2⟩ := hcl
    subst hc h1 h2
    simp at hs
    obtain ⟨_, rfl⟩ := hs
    simp [State.rank, Producer.rank, Closer.rank]
  | panic w =>
    exfalso
    cases w
    · cases p1 <;> simp [step, State.prod] at hs
      obtain ⟨_, _, rfl⟩ := hs
      simp at h'
    · cases p2 <;> simp [step, State.prod] at hs
      obtain ⟨_, _, rfl⟩ := hs
      simp at h'

theorem fanIn_rank_run : ∀ (sched : List Action) (s s' : State),
    Inv s → run sched s = some s' → s'.rank + sched.length = s.rank := by
  intro sched
  induction sched with
  | nil => intro s s' _ hr; simp [run] at hr; simp [hr]
  | cons a as ih =>
    intro s s' h hr
    simp only [run] at hr
    cases hstep : step a s with
    | none => simp [hstep] at hr
    | some t =>
      simp only [hstep] at hr
      have h1 := ih t s' (fanIn_inv_step h hstep) hr
      have h2 := fanIn_rank_step h hstep
      simp only [List.length_cons]
      omega

theorem fanIn_length_le_of_run {sched : List Action} {s : State} (h : run sched init = some s) :
    sched.length ≤ 69 := by
  have := fanIn_rank_run sched init s fanIn_inv_init h
  have e : init.rank = 69 := by decide
  omega

theorem fanIn_progress {s : State} (h : Inv s) (hm : s.main ≠ .returned) :
    ∃ a s', step a s = some s' := by
  obtain ⟨m, p1, p2, cl, closed, pan, rcv, out⟩ := s
  obtain ⟨hpan, hr1, hr2, hmerge, hst, hcl⟩ := h
  simp only at hpan hm
  subst hpan
  cases m with
  | go1 => exact ⟨.main, by simp [step]⟩
  | go2 => exact ⟨.main, by simp [step]⟩
  | go3 => exact ⟨.main, by simp [step]⟩
  | print n => exact ⟨.main, by simp [step]⟩
  | returned => exact absurd rfl hm
  | range =>
    cases closed with
    | true => exact ⟨.main, by simp [step]⟩
    | false =>
      cases cl with
      | notStarted => simp [StartedOk] at hst
      | finished => simp [CloserOk] at hcl
      | close => exact ⟨.close, by simp [step]⟩
      | recv1 =>
        cases p1 with
        | notStarted => simp [StartedOk] at hst
        | finished => simp [CloserOk] at hcl
        | test i => exact ⟨.test .first, by simp [step, State.prod]⟩
        | send i => exact ⟨.send .first, by simp [step, State.prod]⟩
        | signal => exact ⟨.done .first, by simp [step, State.prod]⟩
      | recv2 =>
        cases p1 with
        | notStarted => simp [StartedOk] at hst
        | test i => exact ⟨.test .first, by simp [step, State.prod]⟩
        | send i => exact ⟨.send .first, by simp [step, State.prod]⟩
        | signal => exact ⟨.done .first, by simp [step, State.prod]⟩
        | finished =>
          cases p2 with
          | notStarted => simp [StartedOk] at hst
          | finished => simp [CloserOk] at hcl
          | test i => exact ⟨.test .second, by simp [step, State.prod]⟩
          | send i => exact ⟨.send .second, by simp [step, State.prod]⟩
          | signal => exact ⟨.done .second, by simp [step, State.prod]⟩

theorem fanIn_final_iff {s : State} (h : Inv s) : Final s ↔ s.main = .returned := by
  constructor
  · intro hf
    by_contra hm
    obtain ⟨a, s', hs⟩ := fanIn_progress h hm
    rw [hf a] at hs
    exact Option.noConfusion hs
  · intro hm a
    simp [step, hm]

theorem fanIn_inv_returned {s : State} (h : Inv s) (hm : s.main = .returned) :
    s.closed = true ∧ s.p1 = .finished ∧ s.p2 = .finished ∧ s.closer = .finished := by
  have hst := h.started
  have hcl := h.closer
  simp only [StartedOk, hm] at hst
  simp only [CloserOk, hst] at hcl
  exact ⟨hcl.1, hcl.2.1, hcl.2.2, hst⟩

theorem fanIn_inv_closed {s : State} (h : Inv s) (hc : s.closed = true) :
    s.p1 = .finished ∧ s.p2 = .finished ∧ s.closer = .finished := by
  have hcl := h.closer
  unfold CloserOk at hcl
  split at hcl <;> simp_all

theorem fanIn_merge_of_finished {s : State} (h : Inv s) (h1 : s.p1 = .finished)
    (h2 : s.p2 = .finished) : Merge (List.range 10) (List.range 10) s.received := by
  have hm := h.merge
  simpa [h1, h2, Producer.sent] using hm

theorem fanIn_count_of_merge {l : List Nat} (h : Merge (List.range 10) (List.range 10) l) :
    l.length = 20 ∧ ∀ v, v < 10 → l.count v = 2 := by
  have hp := h.perm
  refine ⟨by simpa using hp.length_eq, ?_⟩
  intro v hv
  rw [hp.count_eq, List.count_append]
  have : List.count v (List.range 10) = 1 := by
    interval_cases v <;> decide
  omega

theorem run_sequential :
    run sequentialSchedule init =
      some (finalState [0, 1, 2, 3, 4, 5, 6, 7, 8, 9, 0, 1, 2, 3, 4, 5, 6, 7, 8, 9]) := by
  decide

theorem run_alternating :
    run alternatingSchedule init =
      some (finalState [0, 0, 1, 1, 2, 2, 3, 3, 4, 4, 5, 5, 6, 6, 7, 7, 8, 8, 9, 9]) := by
  decide

/-- C1: every interleaving of the fan-in program has at most 69 steps, can be extended as long
as `main` has not returned, and when `main` has left the loop it has received exactly 20
values, each of `0..9` exactly twice. -/
theorem fanIn_each_value_twice (sched : List Action) (s : State)
    (h : run sched init = some s) :
    sched.length ≤ 69 ∧ (Final s ↔ s.main = .returned) ∧
    (s.main = .returned →
      s.received.length = 20 ∧ ∀ v, v < 10 → s.received.count v = 2) := by
  have hinv := fanIn_inv_run sched init s fanIn_inv_init h
  refine ⟨fanIn_length_le_of_run h, fanIn_final_iff hinv, ?_⟩
  intro hm
  obtain ⟨_, h1, h2, _⟩ := fanIn_inv_returned hinv hm
  exact fanIn_count_of_merge (fanIn_merge_of_finished hinv h1 h2)

theorem fanIn_each_value_twice_witness :
    run alternatingSchedule init =
      some (finalState [0, 0, 1, 1, 2, 2, 3, 3, 4, 4, 5, 5, 6, 6, 7, 7, 8, 8, 9, 9]) ∧
    [0, 0, 1, 1, 2, 2, 3, 3, 4, 4, 5, 5, 6, 6, 7, 7, 8, 8, 9, 9].length = 20 ∧
    ∀ v, v < 10 → [0, 0, 1, 1, 2, 2, 3, 3, 4, 4, 5, 5, 6, 6, 7, 7, 8, 8, 9, 9].count v = 2 :=
  ⟨run_alternating,
    (fanIn_each_value_twice alternatingSchedule _ run_alternating).2.2 rfl⟩

/-- C2: in every reachable state of the fan-in program in which `c` is closed, both producers
have finished (all ten values and the done token sent, so all twenty values are already
received) and the closer is past both receives on `done`; and `close(c)` is enabled only when
both producers have finished. -/
theorem fanIn_closed_after_producers (sched : List Action) (s : State)
    (h : run sched init = some s) :
    (s.closed = true →
      s.p1 = .finished ∧ s.p2 = .finished ∧ s.closer = .finished ∧
      Merge (List.range 10) (List.range 10) s.received) ∧
    (∀ s', step .close s = some s' →
      s.closed = false ∧ s.p1 = .finished ∧ s.p2 = .finished ∧ s'.closed = true) := by
  have hinv := fanIn_inv_run sched init s fanIn_inv_init h
  constructor
  · intro hc
    obtain ⟨h1, h2, h3⟩ := fanIn_inv_closed hinv hc
    exact ⟨h1, h2, h3, fanIn_merge_of_finished hinv h1 h2⟩
  · intro s' hs
    have hcl := hinv.closer
    have hcl' := (fanIn_inv_step hinv hs).closer
    obtain ⟨m, p1, p2, cl, closed, pan, rcv, out⟩ := s
    cases cl <;> simp [step] at hs
    simp [CloserOk] at hcl
    obtain ⟨hc, h1, h2⟩ := hcl
    subst hc h1 h2
    simp at hs
    obtain ⟨_, rfl⟩ := hs
    simp

theorem fanIn_closed_after_producers_witness :
    run (sequentialSchedule.take 68) init =
      some (closedState [0, 1, 2, 3, 4, 5, 6, 7, 8, 9, 0, 1, 2, 3, 4, 5, 6, 7, 8, 9]) ∧
    Merge (List.range 10) (List.range 10)
      [0, 1, 2, 3, 4, 5, 6, 7, 8, 9, 0, 1, 2, 3, 4, 5, 6, 7, 8, 9] :=
  ⟨by decide,
    ((fanIn_closed_after_producers (sequentialSchedule.take 68)
      (closedState [0, 1, 2, 3, 4, 5, 6, 7, 8, 9, 0, 1, 2, 3, 4, 5, 6, 7, 8, 9])
      (by decide)).1 rfl).2.2.2⟩

/-- C3: in no reachable state of the fan-in program has a panic occurred, no producer is at a
send `c <- i` while `c` is closed, and the send-on-closed-channel step is never enabled. -/
theorem fanIn_no_send_on_closed (sched : List Action) (s : State)
    (h : run sched init = some s) :
    s.panicked = false ∧
    (s.closed = true → ∀ w i, s.prod w ≠ .send i) ∧
    (∀ w, step (.panic w) s = none) := by
  have hinv := fanIn_inv_run sched init s fanIn_inv_init h
  refine ⟨hinv.noPanic, ?_, ?_⟩
  · intro hc w i
    obtain ⟨h1, h2, _⟩ := fanIn_inv_closed hinv hc
    cases w <;> simp [State.prod, h1, h2]
  · intro w
    cases hs : step (.panic w) s with
    | none => rfl
    | some s' =>
      exfalso
      have h' := (fanIn_inv_step hinv hs).noPanic
      obtain ⟨m, p1, p2, cl, closed, pan, rcv, out⟩ := s
      cases w
      · cases p1 <;> simp [step, State.prod] at hs
        obtain ⟨_, _, rfl⟩ := hs
        simp at h'
      · cases p2 <;> simp [step, State.prod] at hs
        obtain ⟨_, _, rfl⟩ := hs
        simp at h'

theorem fanIn_no_send_on_closed_witness :
    run (alternatingSchedule.take 68) init =
      some (closedState [0, 0, 1, 1, 2, 2, 3, 3, 4, 4, 5, 5, 6, 6, 7, 7, 8, 8, 9, 9]) ∧
    ∀ w, step (.panic w)
      (closedState [0, 0, 1, 1, 2, 2, 3, 3, 4, 4, 5, 5, 6, 6, 7, 7, 8, 8, 9, 9]) = none :=
  ⟨by decide,
    (fanIn_no_send_on_closed (alternatingSchedule.take 68)
      (closedState [0, 0, 1, 1, 2, 2, 3, 3, 4, 4, 5, 5, 6, 6, 7, 7, 8, 8, 9, 9])
      (by decide)).2.2⟩

/-- C4: in every reachable state of the fan-in program the received sequence is an
order-preserving merge of the values `0..k1-1` and `0..k2-1` the two producers have sent so
far; every interleaving has at most 69 steps and ends only when `main` has returned, and then
the received sequence is a merge of two copies of `0, 1, ..., 9`. -/
theorem fanIn_order_preserved (sched : List Action) (s : State)
    (h : run sched init = some s) :
    Merge (List.range s.p1.sent) (List.range s.p2.sent) s.received ∧
    sched.length ≤ 69 ∧ (Final s ↔ s.main = .returned) ∧
    (s.main = .returned →
      Merge [0, 1, 2, 3, 4, 5, 6, 7, 8, 9] [0, 1, 2, 3, 4, 5, 6, 7, 8, 9] s.received) := by
  have hinv := fanIn_inv_run sched init s fanIn_inv_init h
  refine ⟨hinv.merge, fanIn_length_le_of_run h, fanIn_final_iff hinv, ?_⟩
  intro hm
  obtain ⟨_, h1, h2, _⟩ := fanIn_inv_returned hinv hm
  have := fanIn_merge_of_finished hinv h1 h2
  have e : List.range 10 = [0, 1, 2, 3, 4, 5, 6, 7, 8, 9] := by decide
  rwa [e] at this

theorem fanIn_order_preserved_witness :
    run (alternatingSchedule.take 42) init = some midState ∧
    Merge (List.range 7) (List.range 6) [0, 0, 1, 1, 2, 2, 3, 3, 4, 4, 5, 5, 6] :=
  ⟨by decide, (fanIn_order_preserved (alternatingSchedule.take 42) midState (by decide)).1⟩

/-- C5: the fan-in program always terminates: every interleaving has at most 69 steps, and
in every reachable state either some step is enabled or `c` is closed and `main` has left
its loop and returned. -/
theorem fanIn_terminates (sched : List Action) (s : State)
    (h : run sched init = some s) :
    sched.length ≤ 69 ∧
    ((∃ a s', step a s = some s') ∨ (s.closed = true ∧ s.main = .returned)) := by
  have hinv := fanIn_inv_run sched init s fanIn_inv_init h
  refine ⟨fanIn_length_le_of_run h, ?_⟩
  by_cases hm : s.main = .returned
  · exact Or.inr ⟨(fanIn_inv_returned hinv hm).1, hm⟩
  · exact Or.inl (fanIn_progress hinv hm)

theorem fanIn_terminates_witness :
    run sequentialSchedule init =
      some (finalState [0, 1, 2, 3, 4, 5, 6, 7, 8, 9, 0, 1, 2, 3, 4, 5, 6, 7, 8, 9]) ∧
    sequentialSchedule.length ≤ 69 :=
  ⟨run_sequential, (fanIn_terminates sequentialSchedule _ run_sequential).1⟩

end FanIn

namespace Atomicity

theorem wrapInt64_of_small {x : Int} (h0 : 0 ≤ x) (h1 : x ≤ 40) : wrapInt64 x = x := by
  unfold wrapInt64
  norm_num
  omega

theorem Worker.incs_eqs :
    Worker.notStarted.incs = 0 ∧ (∀ i, (Worker.test i).incs = i) ∧
    (∀ i, (Worker.sleep i).incs = i) ∧ (∀ i, (Worker.add i).incs = i) ∧
    (∀ i, (Worker.load i).incs = i + 1) ∧ (∀ i v, (Worker.print i v).incs = i + 1) ∧
    Worker.done.incs = 20 ∧ Worker.finished.incs = 20 :=
  ⟨rfl, fun _ => rfl, fun _ => rfl, fun _ => rfl, fun _ => rfl, fun _ _ => rfl, rfl, rfl⟩

theorem Worker.dones_eqs :
    Worker.notStarted.dones = 0 ∧ (∀ i, (Worker.test i).dones = 0) ∧
    (∀ i, (Worker.sleep i).dones = 0) ∧ (∀ i, (Worker.add i).dones = 0) ∧
    (∀ i, (Worker.load i).dones = 0) ∧ (∀ i v, (Worker.print i v).dones = 0) ∧
    Worker.done.dones = 0 ∧ Worker.finished.dones = 1 :=
  ⟨rfl, fun _ => rfl, fun _ => rfl, fun _ => rfl, fun _ => rfl, fun _ _ => rfl, rfl, rfl⟩

theorem Worker.inRange_eqs :
    (Worker.notStarted.InRange ↔ True) ∧ (∀ i, (Worker.test i).InRange ↔ i ≤ 20) ∧
    (∀ i, (Worker.sleep i).InRange ↔ i < 20) ∧ (∀ i, (Worker.add i).InRange ↔ i < 20) ∧
    (∀ i, (Worker.load i).InRange ↔ i < 20) ∧ (∀ i v, (Worker.print i v).InRange ↔ i < 20) ∧
    (Worker.done.InRange ↔ True) ∧ (Worker.finished.InRange ↔ True) :=
  ⟨Iff.rfl, fun _ => Iff.rfl, fun _ => Iff.rfl, fun _ => Iff.rfl, fun _ => Iff.rfl,
    fun _ _ => Iff.rfl, Iff.rfl, Iff.rfl⟩

theorem Worker.rank_eqs :
    Worker.notStarted.rank = 102 ∧ (∀ i, (Worker.test i).rank = 5 * (20 - i) + 2) ∧
    (∀ i, (Worker.sleep i).rank = 5 * (20 - i) + 1) ∧
    (∀ i, (Worker.add i).rank = 5 * (20 - i)) ∧
    (∀ i, (Worker.load i).rank = 5 * (20 - i) - 1) ∧
    (∀ i v, (Worker.print i v).rank = 5 * (20 - i) - 2) ∧
    Worker.done.rank = 1 ∧ Worker.finished.rank = 0 :=
  ⟨rfl, fun _ => rfl, fun _ => rfl, fun _ => rfl, fun _ => rfl, fun _ _ => rfl, rfl, rfl⟩

theorem atomicity_incs_bounds {p : Worker} (h : p.InRange) : 0 ≤ p.incs ∧ p.incs ≤ 20 := by
  cases p <;> simp [Worker.inRange_eqs] at h <;> simp [Worker.incs_eqs] <;> omega

theorem atomicity_dones_bounds (p : Worker) : 0 ≤ p.dones ∧ p.dones ≤ 1 := by
  cases p <;> simp [Worker.dones_eqs]

theorem atomicity_inv_init : Inv init := by
  refine ⟨rfl, trivial, trivial, ?_, ?_, ?_⟩ <;> simp [MainOk, init, Worker.incs_eqs]

theorem atomicity_inv_step_main {s s' : State} (h : Inv s) (hs : step .main s = some s') :
    Inv s' := by
  obtain ⟨m, foo, bar, wg, counter, pan, out⟩ := s
  obtain ⟨hpan, hr1, hr2, hcount, hmain, hfinal⟩ := h
  simp only at hpan hr1 hr2 hcount hfinal
  subst hpan
  cases m with
  | add =>
    simp [MainOk] at hmain
    obtain ⟨rfl, rfl, rfl⟩ := hmain
    simp [step, wgAdd] at hs
    subst hs
    refine ⟨rfl, trivial, trivial, hcount, ?_, hfinal⟩
    simp [MainOk]
  | goFoo =>
    simp [MainOk] at hmain
    obtain ⟨rfl, rfl, rfl⟩ := hmain
    simp [step] at hs
    subst hs
    refine ⟨rfl, ?_, trivial, ?_, ?_, hfinal⟩ <;>
      simp_all [MainOk, Worker.inRange_eqs, Worker.incs_eqs, Worker.dones_eqs]
  | goBar =>
    simp [MainOk] at hmain
    obtain ⟨h1, rfl, rfl⟩ := hmain
    simp [step] at hs
    subst hs
    refine ⟨rfl, hr1, ?_, ?_, ?_, hfinal⟩ <;>
      simp_all [MainOk, Worker.inRange_eqs, Worker.incs_eqs, Worker.dones_eqs]
  | wait =>
    simp [MainOk] at hmain
    obtain ⟨h1, h2, h3⟩ := hmain
    simp [step] at hs
    obtain ⟨h0, rfl⟩ := hs
    refine ⟨rfl, hr1, hr2, hcount, ?_, hfinal⟩
    subst h3
    cases foo <;> cases bar <;> simp [Worker.dones_eqs] at h0
    simp [MainOk]
  | read =>
    simp [MainOk] at hmain
    obtain ⟨rfl, rfl⟩ := hmain
    simp [step] at hs
    subst hs
    refine ⟨rfl, hr1, hr2, hcount, ?_, hfinal⟩
    simp [MainOk, hcount, Worker.incs_eqs]
  | print v =>
    simp [MainOk] at hmain
    obtain ⟨rfl, rfl, rfl⟩ := hmain
    simp [step] at hs
    subst hs
    refine ⟨rfl, hr1, hr2, hcount, ?_, ?_⟩
    · simp [MainOk]
    · intro v hv
      simp only [List.mem_append, List.mem_singleton] at hv
      rcases hv with hv | hv
      · exact hfinal v hv
      · exact Line.final.inj hv
  | returned => simp [step] at hs

theorem atomicity_inv_step_foo {s s' : State} (h : Inv s) (hs : step (.worker .foo) s = some s') :
    Inv s' := by
  obtain ⟨m, foo, bar, wg, counter, pan, out⟩ := s
  obtain ⟨hpan, hr1, hr2, hcount, hmain, hfinal⟩ := h
  simp only at hpan hr1 hr2 hcount hfinal
  subst hpan
  have hb := atomicity_incs_bounds hr2
  have hd := atomicity_dones_bounds bar
  cases foo with
  | notStarted => simp [step, State.worker] at hs
  | finished => simp [step, State.worker] at hs
  | test i =>
    simp [step, State.worker, State.setWorker] at hs
    obtain ⟨hm, rfl⟩ := hs
    simp only [Worker.inRange_eqs] at hr1
    by_cases hi : i < 20
    · cases m <;> simp [MainOk] at hmain hm <;>
        refine ⟨rfl, ?_, ?_, ?_, ?_, hfinal⟩ <;>
        simp_all [MainOk, Worker.inRange_eqs, Worker.incs_eqs, Worker.dones_eqs]
    · have h20 : i = 20 := by omega
      subst h20
      cases m <;> simp [MainOk] at hmain hm <;>
        refine ⟨rfl, ?_, ?_, ?_, ?_, hfinal⟩ <;>
        simp_all [MainOk, Worker.inRange_eqs, Worker.incs_eqs, Worker.dones_eqs]
  | sleep i =>
    simp [step, State.worker, State.setWorker] at hs
    obtain ⟨hm, rfl⟩ := hs
    cases m <;> simp [MainOk] at hmain hm <;>
      refine ⟨rfl, ?_, ?_, ?_, ?_, hfinal⟩ <;>
      simp_all [MainOk, Worker.inRange_eqs, Worker.incs_eqs, Worker.dones_eqs]
  | add i =>
    simp [step, State.worker, State.setWorker] at hs
    obtain ⟨hm, rfl⟩ := hs
    simp only [Worker.inRange_eqs, Worker.incs_eqs] at hr1 hcount
    have hw : wrapInt64 (counter + 1) = counter + 1 :=
      wrapInt64_of_small (by omega) (by omega)
    cases m <;> simp [MainOk] at hmain hm <;>
      refine ⟨rfl, ?_, ?_, ?_, ?_, hfinal⟩ <;>
      simp_all [MainOk, Worker.inRange_eqs, Worker.incs_eqs, Worker.dones_eqs] <;> omega
  | load i =>
    simp [step, State.worker, State.setWorker] at hs
    obtain ⟨hm, rfl⟩ := hs
    cases m <;> simp [MainOk] at hmain hm <;>
      refine ⟨rfl, ?_, ?_, ?_, ?_, hfinal⟩ <;>
      simp_all [MainOk, Worker.inRange_eqs, Worker.incs_eqs, Worker.dones_eqs]
  | print i v =>
    simp [step, State.worker, State.setWorker] at hs
    obtain ⟨hm, rfl⟩ := hs
    simp only [Worker.inRange_eqs] at hr1
    have hf : ∀ u, Line.final u ∈ out ++ [Line.worker .foo i v] → u = 40 := by
      intro u hu
      simp only [List.mem_append, List.mem_singleton] at hu
      rcases hu with hu | hu
      · exact hfinal u hu
      · exact Line.noConfusion hu
    cases m <;> simp [MainOk] at hmain hm <;>
      refine ⟨rfl, ?_, ?_, ?_, ?_, hf⟩ <;>
      simp_all [MainOk, Worker.inRange_eqs, Worker.incs_eqs, Worker.dones_eqs] <;> omega
  | done =>
    simp [step, State.worker, State.setWorker, wgAdd] at hs
    obtain ⟨hm, hs⟩ := hs
    cases m <;> simp [MainOk, Worker.dones_eqs] at hmain hm
    all_goals
      obtain ⟨h1, h2, rfl⟩ := hmain
      rw [if_neg (by omega)] at hs
      subst hs
      refine ⟨rfl, ?_, ?_, ?_, ?_, hfinal⟩ <;>
        simp_all [MainOk, Worker.inRange_eqs, Worker.incs_eqs, Worker.dones_eqs] <;> omega

theorem atomicity_inv_step_bar {s s' : State} (h : Inv s) (hs : step (.worker .bar) s = some s') :
    Inv s' := by
  obtain ⟨m, foo, bar, wg, counter, pan, out⟩ := s
  obtain ⟨hpan, hr1, hr2, hcount, hmain, hfinal⟩ := h
  simp only at hpan hr1 hr2 hcount hfinal
  subst hpan
  have hb := atomicity_incs_bounds hr1
  have hd := atomicity_dones_bounds foo
  cases bar with
  | notStarted => simp [step, State.worker] at hs
  | finished => simp [step, State.worker] at hs
  | test i =>
    simp [step, State.worker, State.setWorker] at hs
    obtain ⟨hm, rfl⟩ := hs
    simp only [Worker.inRange_eqs] at hr2
    by_cases hi : i < 20
    · cases m <;> simp [MainOk] at hmain hm <;>
        refine ⟨rfl, ?_, ?_, ?_, ?_, hfinal⟩ <;>
        simp_all [MainOk, Worker.inRange_eqs, Worker.incs_eqs, Worker.dones_eqs]
    · have h20 : i = 20 := by omega
      subst h20
      cases m <;> simp [MainOk] at hmain hm <;>
        refine ⟨rfl, ?_, ?_, ?_, ?_, hfinal⟩ <;>
        simp_all [MainOk, Worker.inRange_eqs, Worker.incs_eqs, Worker.dones_eqs]
  | sleep i =>
    simp [step, State.worker, State.setWorker] at hs
    obtain ⟨hm, rfl⟩ := hs
    cases m <;> simp [MainOk] at hmain hm <;>
      refine ⟨rfl, ?_, ?_, ?_, ?_, hfinal⟩ <;>
      simp_all [MainOk, Worker.inRange_eqs, Worker.incs_eqs, Worker.dones_eqs]
  | add i =>
    simp [step, State.worker, State.setWorker] at hs
    obtain ⟨hm, rfl⟩ := hs
    simp only [Worker.inRange_eqs, Worker.incs_eqs] at hr2 hcount
    have hw : wrapInt64 (counter + 1) = counter + 1 :=
      wrapInt64_of_small (by omega) (by omega)
    cases m <;> simp [MainOk] at hmain hm <;>
      refine ⟨rfl, ?_, ?_, ?_, ?_, hfinal⟩ <;>
      simp_all [MainOk, Worker.inRange_eqs, Worker.incs_eqs, Worker.dones_eqs] <;> omega
  | load i =>
    simp [step, State.worker, State.setWorker] at hs
    obtain ⟨hm, rfl⟩ := hs
    cases m <;> simp [MainOk] at hmain hm <;>
      refine ⟨rfl, ?_, ?_, ?_, ?_, hfinal⟩ <;>
      simp_all [MainOk, Worker.inRange_eqs, Worker.incs_eqs, Worker.dones_eqs]
  | print i v =>
    simp [step, State.worker, State.setWorker] at hs
    obtain ⟨hm, rfl⟩ := hs
    simp only [Worker.inRange_eqs] at hr2
    have hf : ∀ u, Line.final u ∈ out ++ [Line.worker .bar i v] → u = 40 := by
      intro u hu
      simp only [List.mem_append, List.mem_singleton] at hu
      rcases hu with hu | hu
      · exact hfinal u hu
      · exact Line.noConfusion hu
    cases m <;> simp [MainOk] at hmain hm <;>
      refine ⟨rfl, ?_, ?_, ?_, ?_, hf⟩ <;>
      simp_all [MainOk, Worker.inRange_eqs, Worker.incs_eqs, Worker.dones_eqs] <;> omega
  | done =>
    simp [step, State.worker, State.setWorker, wgAdd] at hs
    obtain ⟨hm, hs⟩ := hs
    cases m <;> simp [MainOk, Worker.dones_eqs] at hmain hm
    all_goals
      obtain ⟨h1, h2, rfl⟩ := hmain
      rw [if_neg (by omega)] at hs
      subst hs
      refine ⟨rfl, ?_, ?_, ?_, ?_, hfinal⟩ <;>
        simp_all [MainOk, Worker.inRange_eqs, Worker.incs_eqs, Worker.dones_eqs] <;> omega

theorem atomicity_inv_step {a : Action} {s s' : State} (h : Inv s) (hs : step a s = some s') :
    Inv s' := by
  cases a with
  | main => exact atomicity_inv_step_main h hs
  | worker w =>
    cases w
    · exact atomicity_inv_step_foo h hs
    · exact atomicity_inv_step_bar h hs

theorem atomicity_inv_run : ∀ (sched : List Action) (s s' : State),
    Inv s → run sched s = some s' → Inv s' := by
  intro sched
  induction sched with
  | nil => intro s s' h hr; simp [run] at hr; exact hr ▸ h
  | cons a as ih =>
    intro s s' h hr
    simp only [run] at hr
    cases hstep : step a s with
    | none => simp [hstep] at hr
    | some t =>
      simp only [hstep] at hr
      exact ih t s' (atomicity_inv_step h hstep) hr

theorem atomicity_rank_step {a : Action} {s s' : State} (h : Inv s) (hs : step a s = some s') :
    s'.rank + 1 = s.rank := by
  obtain ⟨m, foo, bar, wg, counter, pan, out⟩ := s
  obtain ⟨hpan, hr1, hr2, hcount, hmain, hfinal⟩ := h
  simp only at hpan hr1 hr2
  subst hpan
  cases a with
  | main =>
    cases m <;> simp [step, wgAdd] at hs <;> simp [MainOk] at hmain
    · obtain ⟨rfl, rfl, rfl⟩ := hmain
      simp at hs
      subst hs
      simp [State.rank, Main.rank] <;> omega
    · obtain ⟨rfl, rfl, rfl⟩ := hmain
      subst hs
      simp [State.rank, Main.rank, Worker.rank_eqs]
    · obtain ⟨_, rfl, rfl⟩ := hmain
      subst hs
      simp [State.rank, Main.rank, Worker.rank_eqs] <;> omega
    · obtain ⟨_, rfl⟩ := hs
      simp [State.rank, Main.rank] <;> omega
    · subst hs
      simp [State.rank, Main.rank] <;> omega
    · subst hs
      simp [State.rank, Main.rank] <;> omega
  | worker w =>
    cases w
    · cases foo <;> simp [step, State.worker, State.setWorker, wgAdd] at hs
      all_goals obtain ⟨hm, hs⟩ := hs
      all_goals simp only [Worker.inRange_eqs] at hr1
      · rename_i i
        subst hs
        by_cases hi : i < 20
        · simp [State.rank, Worker.rank_eqs, hi] <;> omega
        · have h20 : i = 20 := by omega
          subst h20
          simp [State.rank, Worker.rank_eqs] <;> omega
      · subst hs; simp [State.rank, Worker.rank_eqs] <;> omega
      · subst hs; simp [State.rank, Worker.rank_eqs] <;> omega
      · subst hs; simp [State.rank, Worker.rank_eqs] <;> omega
      · subst hs; simp [State.rank, Worker.rank_eqs] <;> omega
      · split at hs <;> subst hs <;> simp [State.rank, Worker.rank_eqs] <;> omega
    · cases bar <;> simp [step, State.worker, State.setWorker, wgAdd] at hs
      all_goals obtain ⟨hm, hs⟩ := hs
      all_goals simp only [Worker.inRange_eqs] at hr2
      · rename_i i
        subst hs
        by_cases hi : i < 20
        · simp [State.rank, Worker.rank_eqs, hi] <;> omega
        · have h20 : i = 20 := by omega
          subst h20
          simp [State.rank, Worker.rank_eqs]
      · subst hs; simp [State.rank, Worker.rank_eqs] <;> omega
      · subst hs; simp [State.rank, Worker.rank_eqs] <;> omega
      · subst hs; simp [State.rank, Worker.rank_eqs] <;> omega
      · subst hs; simp [State.rank, Worker.rank_eqs] <;> omega
      · split at hs <;> subst hs <;> simp [State.rank, Worker.rank_eqs]

theorem atomicity_rank_run : ∀ (sched : List Action) (s s' : State),
    Inv s → run sched s = some s' → s'.rank + sched.length = s.rank := by
  intro sched
  induction sched with
  | nil => intro s s' _ hr; simp [run] at hr; simp [hr]
  | cons a as ih =>
    intro s s' h hr
    simp only [run] at hr
    cases hstep : step a s with
    | none => simp [hstep] at hr
    | some t =>
      simp only [hstep] at hr
      have h1 := ih t s' (atomicity_inv_step h hstep) hr
      have h2 := atomicity_rank_step h hstep
      simp only [List.length_cons]
      omega

theorem atomicity_length_le_of_run {sched : List Action} {s : State} (h : run sched init = some s) :
    sched.length ≤ 210 := by
  have := atomicity_rank_run sched init s atomicity_inv_init h
  have e : init.rank = 210 := by decide
  omega

theorem atomicity_worker_enabled {s : State} (w : Who) (hp : s.panicked = false)
    (hm : s.main ≠ .returned) (h1 : s.worker w ≠ .notStarted) (h2 : s.worker w ≠ .finished) :
    ∃ s', step (.worker w) s = some s' := by
  cases hw : s.worker w <;> simp [step, hp, hm, hw] <;> simp_all

theorem atomicity_progress {s : State} (h : Inv s) (hm : s.main ≠ .returned) :
    ∃ a s', step a s = some s' := by
  have hmain := h.mainOk
  have hpan := h.noPanic
  by_cases hw : s.main = .wait
  · simp only [MainOk, hw] at hmain
    obtain ⟨h1, h2, h3⟩ := hmain
    by_cases hf : s.foo = .finished
    · by_cases hb : s.bar = .finished
      · refine ⟨.main, ?_⟩
        simp [step, hpan, hw, h3, hf, hb, Worker.dones_eqs]
      · exact ⟨.worker .bar, atomicity_worker_enabled .bar hpan hm h2 hb⟩
    · exact ⟨.worker .foo, atomicity_worker_enabled .foo hpan hm h1 hf⟩
  · refine ⟨.main, ?_⟩
    cases hmm : s.main <;> simp [step, hpan, hmm] <;> simp_all

theorem atomicity_final_iff {s : State} (h : Inv s) : Final s ↔ s.main = .returned := by
  constructor
  · intro hf
    by_contra hm
    obtain ⟨a, s', hs⟩ := atomicity_progress h hm
    rw [hf a] at hs
    exact Option.noConfusion hs
  · intro hm a
    simp [step, hm]

set_option maxRecDepth 100000 in
theorem run_fooFirst : run fooFirstSchedule init = some fooFirstFinal := by
  decide

/-- C6: in every interleaving of the atomicity program, `main` is at the read of `counter`
only when both incrementor goroutines have called `wg.Done` and returned, the value read is
40, and every `Final Counter:` line carries 40; every interleaving has at most 210 steps and
ends only when `main` has returned, having printed `Final Counter: 40` last. -/
theorem atomicity_final_counter (sched : List Action) (s : State)
    (h : run sched init = some s) :
    (s.main = .read → s.foo = .finished ∧ s.bar = .finished ∧ s.counter = 40) ∧
    (∀ v, s.main = .print v → s.foo = .finished ∧ s.bar = .finished ∧ v = 40) ∧
    (∀ v, Line.final v ∈ s.stdout → v = 40) ∧
    sched.length ≤ 210 ∧ (Final s ↔ s.main = .returned) ∧
    (s.main = .returned → s.counter = 40 ∧ s.stdout.getLast? = some (.final 40)) := by
  have hinv := atomicity_inv_run sched init s atomicity_inv_init h
  have hmain := hinv.mainOk
  have hcount := hinv.count
  refine ⟨?_, ?_, hinv.finalLine, atomicity_length_le_of_run h, atomicity_final_iff hinv, ?_⟩
  · intro hm
    simp only [MainOk, hm] at hmain
    obtain ⟨h1, h2⟩ := hmain
    refine ⟨h1, h2, ?_⟩
    simp [hcount, h1, h2, Worker.incs_eqs]
  · intro v hm
    simp only [MainOk, hm] at hmain
    exact hmain
  · intro hm
    simp only [MainOk, hm] at hmain
    obtain ⟨h1, h2, h3⟩ := hmain
    refine ⟨?_, h3⟩
    simp [hcount, h1, h2, Worker.incs_eqs]

theorem atomicity_final_counter_witness :
    run fooFirstSchedule init = some fooFirstFinal ∧
    fooFirstFinal.counter = 40 ∧ fooFirstFinal.stdout.getLast? = some (.final 40) :=
  ⟨run_fooFirst,
    (atomicity_final_counter fooFirstSchedule fooFirstFinal run_fooFirst).2.2.2.2.2 rfl⟩

end Atomicity
